import Mathlib

/-!
Shallow embedding of `src/index.ts` (an asset cache / batch loader module):
module-level state (`_resources`, `_loaders`, `_pending`, default callbacks)
becomes an explicit `State`, JS `Map`s become association lists, and the
asynchronous loader callbacks become an explicit completion schedule whose
observable effects (callback invocations, loader invocations, promise
resolution) are recorded as a trace of events.

Conventions:
- JS `null` (the in-progress placeholder stored by `load`/`_createPromise`)
  is `Value.vnull`; JS `undefined` (what `Map.get` yields for an absent key,
  and the value an errored `load` resolves with) is `Value.vundef`; loaded
  artifacts are `Value.res n`.
- A loader class (`LoaderType`) is identified by a `Nat`; a constructed
  loader instance is identified by the value of a fresh-instance counter,
  so two constructions never yield the same instance id.
- Callbacks cannot be compared as functions, so the state stores only
  whether a callback is present, and an invocation is a trace event.
- `Array.prototype.pop` removes the LAST element, so the `while` drain loop
  of `loadPending` processes `_pending` in reverse (most recent first);
  the model drains `pending.reverse` front to back.
- Loaders are asynchronous: every success/error callback fires after the
  drain loop has finished, so the completion phase runs after the whole
  drain with the final `total`, exactly as the closure-captured `total`
  already has its final value when a real callback runs. The order in which
  the in-flight operations settle is an arbitrary schedule pairing each
  created operation with its outcome.
-/

namespace Assets

/-- A JS value stored in the `_resources` map: `vnull` is the JS `null`
in-progress placeholder, `vundef` is JS `undefined`, `res n` an artifact. -/
inductive Value where
  | vnull : Value
  | vundef : Value
  | res : Nat → Value
deriving DecidableEq, Repr

/-- Observable events of a run: loader-registry lookups, loader `load`
invocations, callback invocations, and resolution of the batch promise. -/
inductive Ev where
  | getLoaderCall : Nat → Nat → Ev     -- `getLoader(t)` ran during a drain, yielding instance `i`
  | loaderLoad : Nat → String → Ev     -- instance `i` had its `load(path, ...)` invoked
  | progressCb : Nat → Nat → Ev        -- effective onProgress invoked with ratio `k / total`
  | loadCb : String → Value → Ev       -- a per-path `onLoad` invoked with a value
  | errorCb : Nat → Ev                 -- effective (or per-call) onError invoked with error `e`
  | resolved : Nat → Ev                -- the `loadPending` promise resolved with a `void[]` of length `n`
deriving DecidableEq, Repr

/-- One variadic argument of `preload`: either a bare path string or a
`ResourceConfig` `\x7b path, onLoad \x7d` (the config always carries an onLoad). -/
inductive PathItem where
  | str : String → PathItem
  | cfg : String → PathItem
deriving DecidableEq, Repr

/-- The `path` of a `preload` argument: `(res as ResourceConfig).path ?? res`. -/
def PathItem.path : PathItem → String
  | .str p => p
  | .cfg p => p

/-- Whether the `preload` argument carries an `onLoad` callback. -/
def PathItem.hasOnLoad : PathItem → Bool
  | .str _ => false
  | .cfg _ => true

/-- A queued `Resource` record: `\x7b loader, paths \x7d` as pushed by `preload`. -/
structure Req where
  loader : Nat
  paths : List PathItem
deriving DecidableEq, Repr

/-- An in-flight load operation created by `_createPromise` during a drain:
which loader instance was used, for which path, and whether the entry had a
per-path `onLoad` callback. -/
structure Op where
  inst : Nat
  path : String
  hasOnLoad : Bool
deriving DecidableEq, Repr

/-- The outcome an asynchronous loader eventually reports for one `load`
call: it invokes exactly one of the success / error callbacks, once. -/
inductive Outcome where
  | success : Value → Outcome
  | error : Nat → Outcome
deriving DecidableEq, Repr

/-- `LoadingConfig`: which of the optional per-call callbacks are supplied. -/
structure LoadingConfig where
  hasOnProgress : Bool
  hasOnError : Bool
deriving DecidableEq, Repr

/-- The module-level mutable state of `src/index.ts`: `_resources` (path →
value), `_loaders` (loader type → constructed instance id) together with the
fresh-instance counter, `_pending`, and whether `_onProgress` / `_onError`
defaults are set (they start as `null`). -/
structure State where
  resources : List (String × Value)
  loaders : List (Nat × Nat)
  nextInstance : Nat
  pending : List Req
  hasOnProgressDefault : Bool
  hasOnErrorDefault : Bool
deriving DecidableEq, Repr

/-- JS `Map.prototype.has`. -/
def mapHas {α β : Type} [DecidableEq α] (k : α) (l : List (α × β)) : Bool :=
  l.any (fun kv => kv.1 = k)

/-- JS `Map.prototype.get` (as an `Option`; `none` is JS `undefined`). -/
def mapGet {α β : Type} [DecidableEq α] (k : α) (l : List (α × β)) : Option β :=
  (l.find? (fun kv => kv.1 = k)).map Prod.snd

/-- JS `Map.prototype.set`: overwrite the binding if present, else append. -/
def mapSet {α β : Type} [DecidableEq α] (k : α) (v : β) : List (α × β) → List (α × β)
  | [] => [(k, v)]
  | kv :: rest => if kv.1 = k then (k, v) :: rest else kv :: mapSet k v rest

/-- JS `Map.prototype.delete` (ignoring the returned Bool). -/
def mapDel {α β : Type} [DecidableEq α] (k : α) (l : List (α × β)) : List (α × β) :=
  l.filter (fun kv => kv.1 ≠ k)

/-- `add(path, value)`: unconditional upsert into `_resources`. -/
def add (st : State) (path : String) (value : Value) : State :=
  { st with resources := mapSet path value st.resources }

/-- `get(path)`: `_resources.get(path)`; an absent key reads as `undefined`. -/
def get (st : State) (path : String) : Value :=
  (mapGet path st.resources).getD Value.vundef

/-- `remove(...paths)`: delete each path from `_resources`. -/
def remove (st : State) (paths : List String) : State :=
  { st with resources := paths.foldl (fun r p => mapDel p r) st.resources }

/-- `getLoader(loaderType)`: construct and memoize an instance on first
request (`new loaderType()` is modelled by taking the current value of the
fresh-instance counter), then return the memoized instance. -/
def getLoader (st : State) (t : Nat) : State × Nat :=
  let st' :=
    if mapHas t st.loaders then st
    else { st with loaders := mapSet t st.nextInstance st.loaders,
                   nextInstance := st.nextInstance + 1 }
  (st', (mapGet t st'.loaders).getD 0)

/-- `removeLoader(loaderType)`: evict the memoized instance. -/
def removeLoader (st : State) (t : Nat) : State :=
  { st with loaders := mapDel t st.loaders }

/-- `setOnProgressDefault(fn)`. -/
def setOnProgressDefault (st : State) (present : Bool) : State :=
  { st with hasOnProgressDefault := present }

/-- `setOnErrorDefault(fn)`. -/
def setOnErrorDefault (st : State) (present : Bool) : State :=
  { st with hasOnErrorDefault := present }

/-- `load(loaderType, path, onProgress?, onError?)` run to settlement.
If `path` is already a key of `_resources`, resolve at once with the stored
value; otherwise store the `null` placeholder, obtain the loader and invoke
its `load`; `oc` is the outcome the asynchronous loader eventually reports.
Returns the final state, the event trace, and the value the returned
promise fulfils with (it never rejects). The per-call `onProgress` is only
passed through to the loader and has no observable effect here. -/
def load (st : State) (t : Nat) (path : String) (hasOnError : Bool)
    (oc : Outcome) : State × List Ev × Value :=
  if mapHas path st.resources then
    (st, [], (mapGet path st.resources).getD Value.vundef)
  else
    let st1 := { st with resources := mapSet path Value.vnull st.resources }
    let g := getLoader st1 t
    match oc with
    | .success v =>
        ({ g.1 with resources := mapSet path v g.1.resources },
         [Ev.loaderLoad g.2 path], v)
    | .error e =>
        ({ g.1 with resources := mapDel path g.1.resources },
         Ev.loaderLoad g.2 path :: (if hasOnError then [Ev.errorCb e] else []),
         Value.vundef)

/-- `preload(loader, ...resources)`: push one `Resource` record. -/
def preload (st : State) (t : Nat) (items : List PathItem) : State :=
  { st with pending := st.pending ++ [⟨t, items⟩] }

/-- Result of the synchronous part of a drain: updated state, the list of
created operations (in creation order, `total` = its length) and the events
emitted synchronously during the drain. -/
structure DrainOut where
  st : State
  ops : List Op
  evs : List Ev
deriving Repr

/-- The `for (const res of resource.paths)` loop of `_load`: a cached path
(any stored value, placeholder included) only fires its `onLoad` with the
stored value; an uncached path gets the `null` placeholder (`_createPromise`
line 109), has the loader's `load` invoked, and contributes one operation. -/
def drainEntries (inst : Nat) (st : State) (items : List PathItem) : DrainOut :=
  match items with
  | [] => ⟨st, [], []⟩
  | it :: rest =>
    if mapHas it.path st.resources then
      let d := drainEntries inst st rest
      { d with evs :=
          (if it.hasOnLoad then
            [Ev.loadCb it.path ((mapGet it.path st.resources).getD Value.vundef)]
          else []) ++ d.evs }
    else
      let st1 := { st with resources := mapSet it.path Value.vnull st.resources }
      let d := drainEntries inst st1 rest
      { d with ops := ⟨inst, it.path, it.hasOnLoad⟩ :: d.ops,
               evs := Ev.loaderLoad inst it.path :: d.evs }

/-- `_load(resource)`: obtain the (memoized) loader for the request's type,
then process its path entries. -/
def drainReq (st : State) (r : Req) : DrainOut :=
  let g := getLoader st r.loader
  let d := drainEntries g.2 g.1 r.paths
  { d with evs := Ev.getLoaderCall r.loader g.2 :: d.evs }

/-- The `while ((resource = _pending.pop()))` loop, on the popped requests
in pop order (most recently pushed first). -/
def drainLoop (st : State) (rs : List Req) : DrainOut :=
  match rs with
  | [] => ⟨st, [], []⟩
  | r :: rest =>
    let d1 := drainReq st r
    let d2 := drainLoop d1.st rest
    ⟨d2.st, d1.ops ++ d2.ops, d1.evs ++ d2.evs⟩

/-- Settlement of one in-flight operation (the callbacks installed by
`_createPromise`): on success store the result, bump `progress`, emit the
`progress / total` ratio, fire the entry's `onLoad`; on error delete the
path, fire `onError`, bump `progress` and emit the ratio. Either way the
operation's promise resolves. -/
def completeOne (hp he : Bool) (total : Nat) (st : State) (progress : Nat)
    (op : Op) (oc : Outcome) : State × Nat × List Ev :=
  match oc with
  | .success v =>
      ({ st with resources := mapSet op.path v st.resources },
       progress + 1,
       (if hp then [Ev.progressCb (progress + 1) total] else []) ++
       (if op.hasOnLoad then [Ev.loadCb op.path v] else []))
  | .error e =>
      ({ st with resources := mapDel op.path st.resources },
       progress + 1,
       (if he then [Ev.errorCb e] else []) ++
       (if hp then [Ev.progressCb (progress + 1) total] else []))

/-- Run a completion schedule: the operations settle one at a time, in
schedule order, sharing the `progress` counter. -/
def runCompletions (hp he : Bool) (total : Nat) (st : State) (progress : Nat)
    (sched : List (Op × Outcome)) : State × Nat × List Ev :=
  match sched with
  | [] => (st, progress, [])
  | x :: rest =>
      let c := completeOne hp he total st progress x.1 x.2
      let r := runCompletions hp he total c.1 c.2.1 rest
      (r.1, r.2.1, c.2.2 ++ r.2.2)

/-- `loadPending(config)` run to settlement: resolve the effective
callbacks (`config.onProgress ?? _onProgress`, same for onError), drain the
whole queue synchronously, then let the created operations settle in the
order given by `sched`, and finally resolve the `Promise.all` with a
`void[]` of length `total`. Returns the final state and the full trace. -/
def loadPending (st : State) (cfg : LoadingConfig)
    (sched : List (Op × Outcome)) : State × List Ev :=
  let hp := cfg.hasOnProgress || st.hasOnProgressDefault
  let he := cfg.hasOnError || st.hasOnErrorDefault
  let d := drainLoop { st with pending := [] } st.pending.reverse
  let total := d.ops.length
  let c := runCompletions hp he total d.st 0 sched
  (c.1, d.evs ++ c.2.2 ++ [Ev.resolved total])

/-- The operations a `loadPending` call would create from state `st`. -/
def opsOf (st : State) : List Op :=
  (drainLoop { st with pending := [] } st.pending.reverse).ops

/-- The `total` counter a `loadPending` call would reach from state `st`. -/
def totalOf (st : State) : Nat :=
  (opsOf st).length

/-- A schedule is valid for a drain when it settles exactly the created
operations, each exactly once, in some order. -/
abbrev SchedValid (sched : List (Op × Outcome)) (ops : List Op) : Prop :=
  List.Perm (sched.map Prod.fst) ops

/-- All paths mentioned by a list of queued requests. -/
def reqPaths (rs : List Req) : List String :=
  (rs.map (fun r => r.paths.map PathItem.path)).flatten

/-- Paths of the `loaderLoad` events of a trace, in order. -/
def loadedPaths (evs : List Ev) : List String :=
  evs.filterMap (fun e => match e with | .loaderLoad _ p => some p | _ => none)

/-- Loader types of the `getLoaderCall` events of a trace, in order. -/
def calledLoaders (evs : List Ev) : List Nat :=
  evs.filterMap (fun e => match e with | .getLoaderCall t _ => some t | _ => none)

/-- Errors passed to the effective onError, in order. -/
def errorEvents (evs : List Ev) : List Nat :=
  evs.filterMap (fun e => match e with | .errorCb e => some e | _ => none)

/-- The `(k, total)` arguments of the onProgress invocations, in order. -/
def progressEvs (evs : List Ev) : List (Nat × Nat) :=
  evs.filterMap (fun e => match e with | .progressCb k t => some (k, t) | _ => none)

/-- The ratios passed to onProgress, as rationals, in order. -/
def progressRatios (evs : List Ev) : List ℚ :=
  (progressEvs evs).map (fun kt => (kt.1 : ℚ) / (kt.2 : ℚ))

/-- The `(path, value)` arguments of the per-path onLoad invocations. -/
def loadCbList (evs : List Ev) : List (String × Value) :=
  evs.filterMap (fun e => match e with | .loadCb p v => some (p, v) | _ => none)

/-- The sizes of the resolutions of the batch promise in a trace. -/
def resolvedList (evs : List Ev) : List Nat :=
  evs.filterMap (fun e => match e with | .resolved n => some n | _ => none)

/-- The errors of a schedule, in settlement order. -/
def schedErrors (sched : List (Op × Outcome)) : List Nat :=
  sched.filterMap (fun x => match x.2 with | .error e => some e | _ => none)

/-- Registry well-formedness: every memoized instance id was produced by an
earlier value of the fresh-instance counter. Holds for the initial state
and is preserved by every operation. -/
def RegistryWF (st : State) : Prop :=
  ∀ pr ∈ st.loaders, pr.2 < st.nextInstance

/-- The initial module state: empty maps, empty queue, `null` defaults. -/
def initialState : State :=
  ⟨[], [], 0, [], false, false⟩

/-- Sample state: one cached resource and two queued requests (with a
duplicate path and an already-cached path among them). -/
def stBatch : State :=
  { initialState with
      resources := [("c.obj", Value.res 7)],
      pending := [⟨0, [PathItem.str "a.obj", PathItem.cfg "b.obj",
                       PathItem.str "a.obj", PathItem.str "c.obj"]⟩,
                  ⟨1, [PathItem.cfg "d.obj"]⟩] }

/-- A settlement order for the operations of `stBatch`: a failure between
two successes, in an order different from creation order. -/
def schedBatch : List (Op × Outcome) :=
  [(⟨1, "b.obj", true⟩, Outcome.error 5),
   (⟨0, "d.obj", true⟩, Outcome.success (Value.res 1)),
   (⟨1, "a.obj", false⟩, Outcome.success (Value.res 2))]

/-- Sample state whose only queued path is already cached. -/
def stAllCached : State :=
  { initialState with
      resources := [("a.obj", Value.res 7)],
      pending := [⟨0, [PathItem.str "a.obj"]⟩] }

/-- Sample state with one cached resource and an empty queue. -/
def stCachedA : State :=
  { initialState with resources := [("a.obj", Value.res 7)] }

/-- Sample state whose entry for `"a.obj"` is the in-progress placeholder. -/
def stInFlightA : State :=
  { initialState with resources := [("a.obj", Value.vnull)] }

/-! ### Association-list lemmas -/

theorem mapHas_nil {α β : Type} [DecidableEq α] (k : α) :
    mapHas k ([] : List (α × β)) = false := rfl

theorem mapHas_cons {α β : Type} [DecidableEq α] (k : α) (kv : α × β) (l : List (α × β)) :
    mapHas k (kv :: l) = (decide (kv.1 = k) || mapHas k l) := by
  simp [mapHas]

theorem mapGet_nil {α β : Type} [DecidableEq α] (k : α) :
    mapGet k ([] : List (α × β)) = none := rfl

theorem mapGet_cons {α β : Type} [DecidableEq α] (k : α) (kv : α × β) (l : List (α × β)) :
    mapGet k (kv :: l) = if kv.1 = k then some kv.2 else mapGet k l := by
  by_cases h : kv.1 = k
  · rw [mapGet, List.find?_cons_of_pos _ (by simp [h]), if_pos h]
    rfl
  · rw [mapGet, List.find?_cons_of_neg _ (by simp [h]), if_neg h]
    rfl

theorem mapDel_cons {α β : Type} [DecidableEq α] (k : α) (kv : α × β) (l : List (α × β)) :
    mapDel k (kv :: l) = if kv.1 = k then mapDel k l else kv :: mapDel k l := by
  by_cases h : kv.1 = k <;> simp [mapDel, List.filter_cons, h]

theorem mapHas_set {α β : Type} [DecidableEq α] (k k' : α) (v : β) (l : List (α × β)) :
    mapHas k' (mapSet k v l) = if k' = k then true else mapHas k' l := by
  induction l with
  | nil =>
      by_cases h : k' = k
      · simp [mapSet, mapHas_cons, mapHas_nil, h]
      · simp [mapSet, mapHas_cons, mapHas_nil, h, show ¬ k = k' from fun he => h he.symm]
  | cons kv rest ih =>
      by_cases hk : kv.1 = k
      · by_cases h : k' = k
        · simp [mapSet, hk, mapHas_cons, h]
        · simp [mapSet, hk, mapHas_cons, h, show ¬ k = k' from fun he => h he.symm]
      · by_cases h : k' = k
        · subst h
          simp [mapSet, hk, mapHas_cons, ih]
        · simp [mapSet, hk, mapHas_cons, ih, h]

theorem mapGet_set {α β : Type} [DecidableEq α] (k k' : α) (v : β) (l : List (α × β)) :
    mapGet k' (mapSet k v l) = if k' = k then some v else mapGet k' l := by
  induction l with
  | nil =>
      by_cases h : k' = k
      · simp [mapSet, mapGet_cons, h]
      · simp [mapSet, mapGet_cons, mapGet_nil, h, show ¬ k = k' from fun he => h he.symm]
  | cons kv rest ih =>
      by_cases hk : kv.1 = k
      · by_cases h : k' = k
        · simp [mapSet, hk, mapGet_cons, h]
        · simp [mapSet, hk, mapGet_cons, h, show ¬ k = k' from fun he => h he.symm]
      · by_cases h : k' = k
        · subst h
          simp [mapSet, hk, mapGet_cons, ih]
        · simp [mapSet, hk, mapGet_cons, ih, h]

theorem mapHas_del {α β : Type} [DecidableEq α] (k k' : α) (l : List (α × β)) :
    mapHas k' (mapDel k l) = if k' = k then false else mapHas k' l := by
  induction l with
  | nil =>
      by_cases h : k' = k <;> simp [mapDel, mapHas_nil, h]
  | cons kv rest ih =>
      by_cases hk : kv.1 = k
      · by_cases h : k' = k
        · subst h
          simp [mapDel_cons, hk, ih]
        · simp [mapDel_cons, mapHas_cons, hk, ih, h,
                show ¬ k = k' from fun he => h he.symm]
      · by_cases h : k' = k
        · subst h
          simp [mapDel_cons, hk, mapHas_cons, ih]
        · simp [mapDel_cons, hk, mapHas_cons, ih, h]

theorem mapGet_del {α β : Type} [DecidableEq α] (k k' : α) (l : List (α × β)) :
    mapGet k' (mapDel k l) = if k' = k then none else mapGet k' l := by
  induction l with
  | nil =>
      by_cases h : k' = k <;> simp [mapDel, mapGet_nil, h]
  | cons kv rest ih =>
      by_cases hk : kv.1 = k
      · by_cases h : k' = k
        · subst h
          simp [mapDel_cons, hk, ih]
        · simp [mapDel_cons, mapGet_cons, hk, ih, h,
                show ¬ k = k' from fun he => h he.symm]
      · by_cases h : k' = k
        · subst h
          simp [mapDel_cons, hk, mapGet_cons, ih]
        · simp [mapDel_cons, hk, mapGet_cons, ih, h]

theorem mapGet_isSome {α β : Type} [DecidableEq α] (k : α) (l : List (α × β)) :
    (mapGet k l).isSome = mapHas k l := by
  induction l with
  | nil => simp [mapGet_nil, mapHas_nil]
  | cons kv rest ih =>
      by_cases hkv : kv.1 = k
      · simp [mapGet_cons, mapHas_cons, hkv]
      · simp [mapGet_cons, mapHas_cons, hkv, ih]

theorem mapGet_of_has_false {α β : Type} [DecidableEq α] {k : α} {l : List (α × β)}
    (h : mapHas k l = false) : mapGet k l = none := by
  have h2 := mapGet_isSome k l
  rw [h] at h2
  exact Option.not_isSome_iff_eq_none.mp (by simp [h2])

theorem mapHas_of_get_some {α β : Type} [DecidableEq α] {k : α} {l : List (α × β)} {v : β}
    (h : mapGet k l = some v) : mapHas k l = true := by
  have h2 := mapGet_isSome k l
  rw [h] at h2
  simpa using h2.symm

theorem mapDel_of_not_has {α β : Type} [DecidableEq α] {k : α} {l : List (α × β)}
    (h : mapHas k l = false) : mapDel k l = l := by
  induction l with
  | nil => rfl
  | cons kv rest ih =>
      rw [mapHas_cons] at h
      simp only [Bool.or_eq_false_iff, decide_eq_false_iff_not] at h
      simp [mapDel_cons, h.1, ih h.2]

theorem mem_mapSet {α β : Type} [DecidableEq α] {pr : α × β} {k : α} {v : β}
    {l : List (α × β)} (h : pr ∈ mapSet k v l) : pr = (k, v) ∨ pr ∈ l := by
  induction l with
  | nil => simpa [mapSet] using h
  | cons kv rest ih =>
      by_cases hk : kv.1 = k
      · rcases (by simpa [mapSet, hk] using h : pr = (k, v) ∨ pr ∈ rest) with h' | h'
        · exact Or.inl h'
        · exact Or.inr (List.mem_cons_of_mem _ h')
      · rcases (by simpa [mapSet, hk] using h : pr = kv ∨ pr ∈ mapSet k v rest) with h' | h'
        · exact Or.inr (h' ▸ List.mem_cons_self _ _)
        · rcases ih h' with h'' | h''
          · exact Or.inl h''
          · exact Or.inr (List.mem_cons_of_mem _ h'')

/-! ### Basic facts about `getLoader`, `removeLoader` and `load` -/

theorem getLoader_resources (st : State) (t : Nat) :
    (getLoader st t).1.resources = st.resources := by
  unfold getLoader
  by_cases h : mapHas t st.loaders <;> simp [h]

theorem getLoader_pending (st : State) (t : Nat) :
    (getLoader st t).1.pending = st.pending := by
  unfold getLoader
  by_cases h : mapHas t st.loaders <;> simp [h]

theorem getLoader_hasOnProgressDefault (st : State) (t : Nat) :
    (getLoader st t).1.hasOnProgressDefault = st.hasOnProgressDefault := by
  unfold getLoader
  by_cases h : mapHas t st.loaders <;> simp [h]

theorem getLoader_hasOnErrorDefault (st : State) (t : Nat) :
    (getLoader st t).1.hasOnErrorDefault = st.hasOnErrorDefault := by
  unfold getLoader
  by_cases h : mapHas t st.loaders <;> simp [h]

theorem getLoader_mem (st : State) (t : Nat) :
    mapGet t (getLoader st t).1.loaders = some (getLoader st t).2 := by
  unfold getLoader
  by_cases h : mapHas t st.loaders
  · simp only [h, if_true]
    have h2 := mapGet_isSome t st.loaders
    rw [h] at h2
    obtain ⟨v, hv⟩ := Option.isSome_iff_exists.mp h2
    simp [hv]
  · simp [h, mapGet_set]

theorem getLoader_lt (st : State) (t : Nat) (h : RegistryWF st) :
    (getLoader st t).2 < (getLoader st t).1.nextInstance := by
  unfold getLoader
  by_cases hm : mapHas t st.loaders
  · simp only [hm, if_true]
    have h2 := mapGet_isSome t st.loaders
    rw [hm] at h2
    obtain ⟨v, hv⟩ := Option.isSome_iff_exists.mp h2
    simp only [hv, Option.getD_some]
    have hmem : (t, v) ∈ st.loaders := by
      unfold mapGet at hv
      obtain ⟨kv, hfind, hsnd⟩ := Option.map_eq_some'.mp hv
      have hk := List.find?_some hfind
      have hmem := List.mem_of_find?_eq_some hfind
      simp only [decide_eq_true_eq] at hk
      have : kv = (t, v) := by
        cases kv
        simp only [Prod.mk.injEq]
        exact ⟨hk, hsnd⟩
      exact this ▸ hmem
    exact h _ hmem
  · simp [hm, mapGet_set]

theorem getLoader_wf (st : State) (t : Nat) (h : RegistryWF st) :
    RegistryWF (getLoader st t).1 := by
  unfold getLoader
  by_cases hm : mapHas t st.loaders
  · simpa [hm] using h
  · simp only [hm, if_false]
    intro pr hpr
    rcases mem_mapSet hpr with rfl | hpr
    · exact Nat.lt_succ_self _
    · exact Nat.lt_succ_of_lt (h _ hpr)

theorem getLoader_nextInstance_le (st : State) (t : Nat) :
    st.nextInstance ≤ (getLoader st t).1.nextInstance := by
  unfold getLoader
  by_cases h : mapHas t st.loaders
  · simp [h]
  · rw [if_neg h]
    exact Nat.le_succ _

theorem removeLoader_wf (st : State) (t : Nat) (h : RegistryWF st) :
    RegistryWF (removeLoader st t) := by
  intro pr hpr
  exact h _ (List.mem_of_mem_filter hpr)

/-- A cached path resolves immediately from the cache, with no observable
effect: the branch `if (_resources.has(path)) return resolve(...)`. -/
theorem load_cached {st : State} {p : String} {v : Value}
    (h : mapGet p st.resources = some v) (t : Nat) (hoe : Bool) (oc : Outcome) :
    load st t p hoe oc = (st, [], v) := by
  unfold load
  rw [if_pos (mapHas_of_get_some h), h]
  rfl

/-! ### Rewriting equations for the drain -/

theorem drainEntries_cons_cached (inst : Nat) (it : PathItem) (rest : List PathItem)
    (st : State) (hc : mapHas it.path st.resources = true) :
    drainEntries inst st (it :: rest) =
      { drainEntries inst st rest with
          evs := (if it.hasOnLoad then
              [Ev.loadCb it.path ((mapGet it.path st.resources).getD Value.vundef)]
            else []) ++ (drainEntries inst st rest).evs } := by
  simp [drainEntries, hc]

theorem drainEntries_cons_new (inst : Nat) (it : PathItem) (rest : List PathItem)
    (st : State) (hc : mapHas it.path st.resources = false) :
    drainEntries inst st (it :: rest) =
      { drainEntries inst { st with resources := mapSet it.path Value.vnull st.resources } rest with
          ops := ⟨inst, it.path, it.hasOnLoad⟩ ::
            (drainEntries inst { st with resources := mapSet it.path Value.vnull st.resources } rest).ops,
          evs := Ev.loaderLoad inst it.path ::
            (drainEntries inst { st with resources := mapSet it.path Value.vnull st.resources } rest).evs } := by
  simp [drainEntries, hc]

/-! ### Invariants of the drain loop -/

theorem drainEntries_has (inst : Nat) (items : List PathItem) (st : State) (p : String) :
    mapHas p (drainEntries inst st items).st.resources =
      (mapHas p st.resources || decide (p ∈ (drainEntries inst st items).ops.map Op.path)) := by
  induction items generalizing st with
  | nil => simp [drainEntries]
  | cons it rest ih =>
      cases hc : mapHas it.path st.resources with
      | true =>
          rw [drainEntries_cons_cached inst it rest st hc]
          exact ih st
      | false =>
          rw [drainEntries_cons_new inst it rest st hc]
          by_cases hp : p = it.path
          · subst hp
            simp [ih, mapHas_set]
          · simp [ih, mapHas_set, hp]

theorem drainEntries_ops_sound (inst : Nat) (items : List PathItem) (st : State) :
    ((drainEntries inst st items).ops.map Op.path).Nodup ∧
    (∀ p ∈ (drainEntries inst st items).ops.map Op.path,
      mapHas p st.resources = false ∧ p ∈ items.map PathItem.path) := by
  induction items generalizing st with
  | nil => simp [drainEntries]
  | cons it rest ih =>
      cases hc : mapHas it.path st.resources with
      | true =>
        obtain ⟨ihn, ihs⟩ := ih st
        rw [drainEntries_cons_cached inst it rest st hc]
        refine ⟨ihn, ?_⟩
        intro p hp
        obtain ⟨h1, h2⟩ := ihs p hp
        exact ⟨h1, by simp [h2]⟩
      | false =>
        rw [drainEntries_cons_new inst it rest st hc]
        obtain ⟨ihn, ihs⟩ :=
          ih { st with resources := mapSet it.path Value.vnull st.resources }
        constructor
        · simp only [List.map_cons]
          refine List.nodup_cons.mpr ⟨?_, ihn⟩
          intro hmem
          have h1 := (ihs it.path hmem).1
          simp [mapHas_set] at h1
        · intro p hp
          simp only [List.map_cons, List.mem_cons] at hp
          rcases hp with hp | hp
          · refine ⟨by simpa using hp ▸ hc, by simp [hp]⟩
          · obtain ⟨h1, h2⟩ := ihs p hp
            rw [mapHas_set] at h1
            by_cases hpe : p = it.path
            · simp [hpe] at h1
            · rw [if_neg hpe] at h1
              exact ⟨h1, by simp [h2]⟩

theorem drainEntries_ops_complete (inst : Nat) (items : List PathItem) (st : State)
    (p : String) :
    p ∈ items.map PathItem.path → mapHas p st.resources = false →
    p ∈ (drainEntries inst st items).ops.map Op.path := by
  induction items generalizing st with
  | nil =>
      intro hp _
      simp at hp
  | cons it rest ih =>
      intro hp hh
      cases hc : mapHas it.path st.resources with
      | true =>
        rw [drainEntries_cons_cached inst it rest st hc]
        have hne : p ≠ it.path := by
          intro he
          rw [he] at hh
          rw [hh] at hc
          exact Bool.false_ne_true hc
        simp only [List.map_cons, List.mem_cons] at hp
        rcases hp with hp | hp
        · exact absurd hp hne
        · exact ih st hp hh
      | false =>
        rw [drainEntries_cons_new inst it rest st hc]
        by_cases hpe : p = it.path
        · simp [hpe]
        · simp only [List.map_cons, List.mem_cons] at hp
          rcases hp with hp | hp
          · exact absurd hp hpe
          · have hh1 : mapHas p (mapSet it.path Value.vnull st.resources) = false := by
              rw [mapHas_set, if_neg hpe]
              exact hh
            simp only [List.map_cons, List.mem_cons]
            exact Or.inr (ih _ hp hh1)

theorem drainEntries_evs (inst : Nat) (items : List PathItem) (st : State) :
    loadedPaths (drainEntries inst st items).evs = (drainEntries inst st items).ops.map Op.path ∧
    progressEvs (drainEntries inst st items).evs = [] ∧
    errorEvents (drainEntries inst st items).evs = [] ∧
    resolvedList (drainEntries inst st items).evs = [] ∧
    calledLoaders (drainEntries inst st items).evs = [] := by
  induction items generalizing st with
  | nil =>
      simp [drainEntries, loadedPaths, progressEvs, errorEvents, resolvedList, calledLoaders]
  | cons it rest ih =>
      cases hc : mapHas it.path st.resources with
      | true =>
        rw [drainEntries_cons_cached inst it rest st hc]
        obtain ⟨i1, i2, i3, i4, i5⟩ := ih st
        simp only [loadedPaths, progressEvs, errorEvents, resolvedList, calledLoaders,
                   List.filterMap_append] at i1 i2 i3 i4 i5 ⊢
        by_cases hol : it.hasOnLoad = true <;>
          simp [hol, List.filterMap_cons, List.filterMap_nil, i1, i2, i3, i4, i5]
      | false =>
        rw [drainEntries_cons_new inst it rest st hc]
        obtain ⟨i1, i2, i3, i4, i5⟩ :=
          ih { st with resources := mapSet it.path Value.vnull st.resources }
        simp only [loadedPaths, progressEvs, errorEvents, resolvedList, calledLoaders,
                   List.filterMap_cons] at i1 i2 i3 i4 i5 ⊢
        simp [i1, i2, i3, i4, i5]

theorem drainEntries_frame (inst : Nat) (items : List PathItem) (st : State) :
    (drainEntries inst st items).st.loaders = st.loaders ∧
    (drainEntries inst st items).st.nextInstance = st.nextInstance ∧
    (drainEntries inst st items).st.pending = st.pending ∧
    (drainEntries inst st items).st.hasOnProgressDefault = st.hasOnProgressDefault ∧
    (drainEntries inst st items).st.hasOnErrorDefault = st.hasOnErrorDefault := by
  induction items generalizing st with
  | nil => simp [drainEntries]
  | cons it rest ih =>
      cases hc : mapHas it.path st.resources with
      | true =>
        rw [drainEntries_cons_cached inst it rest st hc]
        exact ih st
      | false =>
        rw [drainEntries_cons_new inst it rest st hc]
        exact ih { st with resources := mapSet it.path Value.vnull st.resources }

theorem reqPaths_cons (r : Req) (rs : List Req) :
    reqPaths (r :: rs) = r.paths.map PathItem.path ++ reqPaths rs := by
  simp [reqPaths]

theorem drainReq_has (st : State) (r : Req) (p : String) :
    mapHas p (drainReq st r).st.resources =
      (mapHas p st.resources || decide (p ∈ (drainReq st r).ops.map Op.path)) := by
  unfold drainReq
  simp only [drainEntries_has, getLoader_resources]

theorem drainReq_ops_sound (st : State) (r : Req) :
    ((drainReq st r).ops.map Op.path).Nodup ∧
    (∀ p ∈ (drainReq st r).ops.map Op.path,
      mapHas p st.resources = false ∧ p ∈ r.paths.map PathItem.path) := by
  unfold drainReq
  have h := drainEntries_ops_sound (getLoader st r.loader).2 r.paths (getLoader st r.loader).1
  rw [getLoader_resources] at h
  exact h

theorem drainReq_ops_complete (st : State) (r : Req) (p : String)
    (hp : p ∈ r.paths.map PathItem.path) (hh : mapHas p st.resources = false) :
    p ∈ (drainReq st r).ops.map Op.path := by
  unfold drainReq
  exact drainEntries_ops_complete (getLoader st r.loader).2 r.paths
    (getLoader st r.loader).1 p hp (by rw [getLoader_resources]; exact hh)

theorem drainReq_evs (st : State) (r : Req) :
    loadedPaths (drainReq st r).evs = (drainReq st r).ops.map Op.path ∧
    progressEvs (drainReq st r).evs = [] ∧
    errorEvents (drainReq st r).evs = [] ∧
    resolvedList (drainReq st r).evs = [] ∧
    calledLoaders (drainReq st r).evs = [r.loader] := by
  unfold drainReq
  obtain ⟨i1, i2, i3, i4, i5⟩ :=
    drainEntries_evs (getLoader st r.loader).2 r.paths (getLoader st r.loader).1
  simp only [loadedPaths, progressEvs, errorEvents, resolvedList, calledLoaders,
             List.filterMap_cons] at i1 i2 i3 i4 i5 ⊢
  simp [i1, i2, i3, i4, i5]

theorem drainReq_frame (st : State) (r : Req) :
    (drainReq st r).st.pending = st.pending ∧
    (drainReq st r).st.hasOnProgressDefault = st.hasOnProgressDefault ∧
    (drainReq st r).st.hasOnErrorDefault = st.hasOnErrorDefault := by
  unfold drainReq
  obtain ⟨-, -, f3, f4, f5⟩ :=
    drainEntries_frame (getLoader st r.loader).2 r.paths (getLoader st r.loader).1
  refine ⟨?_, ?_, ?_⟩
  · rw [f3, getLoader_pending]
  · rw [f4, getLoader_hasOnProgressDefault]
  · rw [f5, getLoader_hasOnErrorDefault]

theorem drainLoop_has (rs : List Req) (st : State) (p : String) :
    mapHas p (drainLoop st rs).st.resources =
      (mapHas p st.resources || decide (p ∈ (drainLoop st rs).ops.map Op.path)) := by
  induction rs generalizing st with
  | nil => simp [drainLoop]
  | cons r rest ih =>
      have hops : (drainLoop st (r :: rest)).ops =
          (drainReq st r).ops ++ (drainLoop (drainReq st r).st rest).ops := rfl
      have hst : (drainLoop st (r :: rest)).st = (drainLoop (drainReq st r).st rest).st := rfl
      rw [hops, hst, ih, drainReq_has]
      simp [List.mem_append, Bool.or_assoc]

theorem drainLoop_ops_sound (rs : List Req) (st : State) :
    ((drainLoop st rs).ops.map Op.path).Nodup ∧
    (∀ p ∈ (drainLoop st rs).ops.map Op.path,
      mapHas p st.resources = false ∧ p ∈ reqPaths rs) := by
  induction rs generalizing st with
  | nil => simp [drainLoop]
  | cons r rest ih =>
      obtain ⟨n1, s1⟩ := drainReq_ops_sound st r
      obtain ⟨n2, s2⟩ := ih (drainReq st r).st
      have hops : (drainLoop st (r :: rest)).ops =
          (drainReq st r).ops ++ (drainLoop (drainReq st r).st rest).ops := rfl
      constructor
      · rw [hops, List.map_append]
        refine List.Nodup.append n1 n2 ?_
        intro p hp1 hp2
        have h2 := (s2 p hp2).1
        rw [drainReq_has] at h2
        simp [hp1] at h2
      · intro p hp
        rw [hops, List.map_append, List.mem_append] at hp
        rcases hp with hp | hp
        · obtain ⟨h1, h2⟩ := s1 p hp
          exact ⟨h1, by rw [reqPaths_cons]; exact List.mem_append_left _ h2⟩
        · obtain ⟨h1, h2⟩ := s2 p hp
          rw [drainReq_has] at h1
          simp only [Bool.or_eq_false_iff] at h1
          exact ⟨h1.1, by rw [reqPaths_cons]; exact List.mem_append_right _ h2⟩

theorem drainLoop_ops_complete (rs : List Req) (st : State) (p : String)
    (hp : p ∈ reqPaths rs) (hh : mapHas p st.resources = false) :
    p ∈ (drainLoop st rs).ops.map Op.path := by
  induction rs generalizing st with
  | nil => simp [reqPaths] at hp
  | cons r rest ih =>
      have hops : (drainLoop st (r :: rest)).ops =
          (drainReq st r).ops ++ (drainLoop (drainReq st r).st rest).ops := rfl
      rw [hops, List.map_append, List.mem_append]
      rw [reqPaths_cons, List.mem_append] at hp
      rcases hp with hp | hp
      · exact Or.inl (drainReq_ops_complete st r p hp hh)
      · cases hd : mapHas p (drainReq st r).st.resources with
        | true =>
            rw [drainReq_has, hh] at hd
            simp only [Bool.false_or, decide_eq_true_eq] at hd
            exact Or.inl hd
        | false => exact Or.inr (ih (drainReq st r).st hp hd)

theorem drainLoop_evs (rs : List Req) (st : State) :
    loadedPaths (drainLoop st rs).evs = (drainLoop st rs).ops.map Op.path ∧
    progressEvs (drainLoop st rs).evs = [] ∧
    errorEvents (drainLoop st rs).evs = [] ∧
    resolvedList (drainLoop st rs).evs = [] ∧
    calledLoaders (drainLoop st rs).evs = rs.map Req.loader := by
  induction rs generalizing st with
  | nil =>
      simp [drainLoop, loadedPaths, progressEvs, errorEvents, resolvedList, calledLoaders]
  | cons r rest ih =>
      obtain ⟨a1, a2, a3, a4, a5⟩ := drainReq_evs st r
      obtain ⟨b1, b2, b3, b4, b5⟩ := ih (drainReq st r).st
      have hevs : (drainLoop st (r :: rest)).evs =
          (drainReq st r).evs ++ (drainLoop (drainReq st r).st rest).evs := rfl
      have hops : (drainLoop st (r :: rest)).ops =
          (drainReq st r).ops ++ (drainLoop (drainReq st r).st rest).ops := rfl
      rw [hevs, hops]
      simp only [loadedPaths, progressEvs, errorEvents, resolvedList, calledLoaders,
                 List.filterMap_append] at a1 a2 a3 a4 a5 b1 b2 b3 b4 b5 ⊢
      simp [a1, a2, a3, a4, a5, b1, b2, b3, b4, b5]

theorem drainLoop_frame (rs : List Req) (st : State) :
    (drainLoop st rs).st.pending = st.pending ∧
    (drainLoop st rs).st.hasOnProgressDefault = st.hasOnProgressDefault ∧
    (drainLoop st rs).st.hasOnErrorDefault = st.hasOnErrorDefault := by
  induction rs generalizing st with
  | nil => exact ⟨rfl, rfl, rfl⟩
  | cons r rest ih =>
      obtain ⟨a1, a2, a3⟩ := drainReq_frame st r
      obtain ⟨b1, b2, b3⟩ := ih (drainReq st r).st
      exact ⟨b1.trans a1, b2.trans a2, b3.trans a3⟩

/-! ### Trace extractors distribute over concatenation -/

theorem loadedPaths_append (a b : List Ev) :
    loadedPaths (a ++ b) = loadedPaths a ++ loadedPaths b := by
  simp [loadedPaths, List.filterMap_append]

theorem calledLoaders_append (a b : List Ev) :
    calledLoaders (a ++ b) = calledLoaders a ++ calledLoaders b := by
  simp [calledLoaders, List.filterMap_append]

theorem errorEvents_append (a b : List Ev) :
    errorEvents (a ++ b) = errorEvents a ++ errorEvents b := by
  simp [errorEvents, List.filterMap_append]

theorem progressEvs_append (a b : List Ev) :
    progressEvs (a ++ b) = progressEvs a ++ progressEvs b := by
  simp [progressEvs, List.filterMap_append]

theorem loadCbList_append (a b : List Ev) :
    loadCbList (a ++ b) = loadCbList a ++ loadCbList b := by
  simp [loadCbList, List.filterMap_append]

theorem resolvedList_append (a b : List Ev) :
    resolvedList (a ++ b) = resolvedList a ++ resolvedList b := by
  simp [resolvedList, List.filterMap_append]

/-! ### Facts about the completion phase -/

theorem completeOne_evs (hp he : Bool) (total : Nat) (st : State) (p : Nat)
    (op : Op) (oc : Outcome) :
    (completeOne hp he total st p op oc).2.1 = p + 1 ∧
    progressEvs (completeOne hp he total st p op oc).2.2 =
      (if hp then [(p + 1, total)] else []) ∧
    errorEvents (completeOne hp he total st p op oc).2.2 =
      (if he then (match oc with | .error e => [e] | .success _ => []) else []) ∧
    loadedPaths (completeOne hp he total st p op oc).2.2 = [] ∧
    resolvedList (completeOne hp he total st p op oc).2.2 = [] ∧
    calledLoaders (completeOne hp he total st p op oc).2.2 = [] := by
  cases oc <;> by_cases h1 : hp = true <;> by_cases h2 : he = true <;>
    by_cases h3 : op.hasOnLoad = true <;>
    simp [completeOne, progressEvs, errorEvents, loadedPaths, resolvedList,
          calledLoaders, h1, h2, h3, List.filterMap_append, List.filterMap_cons]

theorem completeOne_has (hp he : Bool) (total : Nat) (st : State) (p : Nat)
    (op : Op) (oc : Outcome) (q : String) :
    mapHas q (completeOne hp he total st p op oc).1.resources =
      (if q = op.path then (match oc with | .success _ => true | .error _ => false)
       else mapHas q st.resources) := by
  cases oc <;> simp [completeOne, mapHas_set, mapHas_del]

theorem completeOne_pending (hp he : Bool) (total : Nat) (st : State) (p : Nat)
    (op : Op) (oc : Outcome) :
    (completeOne hp he total st p op oc).1.pending = st.pending := by
  cases oc <;> rfl

theorem runCompletions_cons (hp he : Bool) (total : Nat) (st : State) (p : Nat)
    (x : Op × Outcome) (rest : List (Op × Outcome)) :
    runCompletions hp he total st p (x :: rest) =
      ((runCompletions hp he total (completeOne hp he total st p x.1 x.2).1
          (completeOne hp he total st p x.1 x.2).2.1 rest).1,
       (runCompletions hp he total (completeOne hp he total st p x.1 x.2).1
          (completeOne hp he total st p x.1 x.2).2.1 rest).2.1,
       (completeOne hp he total st p x.1 x.2).2.2 ++
       (runCompletions hp he total (completeOne hp he total st p x.1 x.2).1
          (completeOne hp he total st p x.1 x.2).2.1 rest).2.2) := rfl

theorem runCompletions_progress (hp he : Bool) (total : Nat)
    (sched : List (Op × Outcome)) :
    ∀ (st : State) (p : Nat),
    progressEvs (runCompletions hp he total st p sched).2.2 =
      (if hp then (List.range sched.length).map (fun i => (p + 1 + i, total)) else []) := by
  induction sched with
  | nil =>
      intro st p
      by_cases h : hp = true <;> simp [runCompletions, progressEvs, h]
  | cons x rest ih =>
      intro st p
      rw [runCompletions_cons]
      obtain ⟨hc1, hc2, -, -, -, -⟩ := completeOne_evs hp he total st p x.1 x.2
      simp only [progressEvs_append, hc2, hc1, ih]
      by_cases h : hp = true
      · simp only [h, if_true, List.length_cons]
        rw [List.range_succ_eq_map, List.map_cons, List.map_map]
        refine List.cons_eq_cons.mpr ⟨by simp, ?_⟩
        apply List.map_congr_left
        intro i _
        simp only [Function.comp_apply, Prod.mk.injEq, Nat.succ_eq_add_one]
        exact ⟨by omega, trivial⟩
      · simp [h]

theorem runCompletions_errors (hp he : Bool) (total : Nat)
    (sched : List (Op × Outcome)) :
    ∀ (st : State) (p : Nat),
    errorEvents (runCompletions hp he total st p sched).2.2 =
      (if he then schedErrors sched else []) := by
  induction sched with
  | nil =>
      intro st p
      by_cases h : he = true <;> simp [runCompletions, errorEvents, schedErrors, h]
  | cons x rest ih =>
      intro st p
      rw [runCompletions_cons]
      obtain ⟨-, -, hc3, -, -, -⟩ := completeOne_evs hp he total st p x.1 x.2
      simp only [errorEvents_append, hc3, ih]
      cases hx : x.2 <;> by_cases h : he = true <;>
        simp [schedErrors, h, hx, List.filterMap_cons]

theorem runCompletions_other_evs (hp he : Bool) (total : Nat)
    (sched : List (Op × Outcome)) :
    ∀ (st : State) (p : Nat),
    loadedPaths (runCompletions hp he total st p sched).2.2 = [] ∧
    resolvedList (runCompletions hp he total st p sched).2.2 = [] ∧
    calledLoaders (runCompletions hp he total st p sched).2.2 = [] := by
  induction sched with
  | nil =>
      intro st p
      simp [runCompletions, loadedPaths, resolvedList, calledLoaders]
  | cons x rest ih =>
      intro st p
      rw [runCompletions_cons]
      obtain ⟨-, -, -, hc4, hc5, hc6⟩ := completeOne_evs hp he total st p x.1 x.2
      obtain ⟨i1, i2, i3⟩ := ih (completeOne hp he total st p x.1 x.2).1
        (completeOne hp he total st p x.1 x.2).2.1
      simp [loadedPaths_append, resolvedList_append, calledLoaders_append,
            hc4, hc5, hc6, i1, i2, i3]

theorem runCompletions_has_frame (hp he : Bool) (total : Nat)
    (sched : List (Op × Outcome)) :
    ∀ (st : State) (p : Nat) (q : String),
    q ∉ sched.map (fun x => x.1.path) →
    mapHas q (runCompletions hp he total st p sched).1.resources =
      mapHas q st.resources := by
  induction sched with
  | nil => intro st p q _; rfl
  | cons x rest ih =>
      intro st p q hq
      simp only [List.map_cons, List.mem_cons, not_or] at hq
      rw [runCompletions_cons]
      have h1 := ih (completeOne hp he total st p x.1 x.2).1
        (completeOne hp he total st p x.1 x.2).2.1 q hq.2
      rw [h1, completeOne_has]
      simp [hq.1]

theorem runCompletions_error_absent (hp he : Bool) (total : Nat)
    (sched : List (Op × Outcome)) :
    ∀ (st : State) (p : Nat) (op : Op) (e : Nat),
    (sched.map (fun x => x.1.path)).Nodup → (op, Outcome.error e) ∈ sched →
    mapHas op.path (runCompletions hp he total st p sched).1.resources = false := by
  induction sched with
  | nil =>
      intro st p op e _ hmem
      simp at hmem
  | cons x rest ih =>
      intro st p op e hnd hmem
      rw [runCompletions_cons]
      rcases List.mem_cons.mp hmem with heq | hmem'
      · subst heq
        simp only [List.map_cons] at hnd
        have hpath : op.path ∉ rest.map (fun x => x.1.path) :=
          (List.nodup_cons.mp hnd).1
        rw [runCompletions_has_frame hp he total rest _ _ op.path hpath,
            completeOne_has]
        simp
      · simp only [List.map_cons] at hnd
        exact ih _ _ op e (List.nodup_cons.mp hnd).2 hmem'

theorem runCompletions_pending (hp he : Bool) (total : Nat)
    (sched : List (Op × Outcome)) :
    ∀ (st : State) (p : Nat),
    (runCompletions hp he total st p sched).1.pending = st.pending := by
  induction sched with
  | nil => intro st p; rfl
  | cons x rest ih =>
      intro st p
      rw [runCompletions_cons]
      rw [ih, completeOne_pending]

/-! ### The batch drain as a whole -/

theorem loadPending_eq (st : State) (cfg : LoadingConfig)
    (sched : List (Op × Outcome)) :
    loadPending st cfg sched =
      ((runCompletions (cfg.hasOnProgress || st.hasOnProgressDefault)
          (cfg.hasOnError || st.hasOnErrorDefault) (totalOf st)
          (drainLoop { st with pending := [] } st.pending.reverse).st 0 sched).1,
       (drainLoop { st with pending := [] } st.pending.reverse).evs ++
       (runCompletions (cfg.hasOnProgress || st.hasOnProgressDefault)
          (cfg.hasOnError || st.hasOnErrorDefault) (totalOf st)
          (drainLoop { st with pending := [] } st.pending.reverse).st 0 sched).2.2 ++
       [Ev.resolved (totalOf st)]) := rfl

theorem mem_reqPaths_reverse (rs : List Req) (p : String) :
    p ∈ reqPaths rs.reverse ↔ p ∈ reqPaths rs := by
  simp [reqPaths, List.mem_flatten, List.mem_reverse]

theorem opsOf_nodup (st : State) : ((opsOf st).map Op.path).Nodup :=
  (drainLoop_ops_sound st.pending.reverse { st with pending := [] }).1

theorem mem_opsOf (st : State) (p : String) :
    p ∈ (opsOf st).map Op.path ↔
      (p ∈ reqPaths st.pending ∧ mapHas p st.resources = false) := by
  constructor
  · intro h
    obtain ⟨-, hs⟩ := drainLoop_ops_sound st.pending.reverse { st with pending := [] }
    obtain ⟨h1, h2⟩ := hs p h
    exact ⟨(mem_reqPaths_reverse st.pending p).mp h2, h1⟩
  · intro h
    exact drainLoop_ops_complete st.pending.reverse { st with pending := [] } p
      ((mem_reqPaths_reverse st.pending p).mpr h.1) h.2

theorem loadPending_loadedPaths (st : State) (cfg : LoadingConfig)
    (sched : List (Op × Outcome)) :
    loadedPaths (loadPending st cfg sched).2 = (opsOf st).map Op.path := by
  rw [loadPending_eq]
  simp only [loadedPaths_append]
  obtain ⟨h1, -, -, -, -⟩ := drainLoop_evs st.pending.reverse { st with pending := [] }
  obtain ⟨h2, -, -⟩ := runCompletions_other_evs
    (cfg.hasOnProgress || st.hasOnProgressDefault)
    (cfg.hasOnError || st.hasOnErrorDefault) (totalOf st) sched
    (drainLoop { st with pending := [] } st.pending.reverse).st 0
  rw [h1, h2]
  simp [loadedPaths, opsOf]

theorem loadPending_resolvedList (st : State) (cfg : LoadingConfig)
    (sched : List (Op × Outcome)) :
    resolvedList (loadPending st cfg sched).2 = [totalOf st] := by
  rw [loadPending_eq]
  simp only [resolvedList_append]
  obtain ⟨-, -, -, h1, -⟩ := drainLoop_evs st.pending.reverse { st with pending := [] }
  obtain ⟨-, h2, -⟩ := runCompletions_other_evs
    (cfg.hasOnProgress || st.hasOnProgressDefault)
    (cfg.hasOnError || st.hasOnErrorDefault) (totalOf st) sched
    (drainLoop { st with pending := [] } st.pending.reverse).st 0
  rw [h1, h2]
  simp [resolvedList]

theorem loadPending_getLast (st : State) (cfg : LoadingConfig)
    (sched : List (Op × Outcome)) :
    (loadPending st cfg sched).2.getLast? = some (Ev.resolved (totalOf st)) := by
  rw [loadPending_eq]
  simp

theorem schedValid_length {st : State} {sched : List (Op × Outcome)}
    (hs : SchedValid sched (opsOf st)) : sched.length = totalOf st := by
  have h := hs.length_eq
  simpa [totalOf] using h

theorem schedValid_paths_nodup {st : State} {sched : List (Op × Outcome)}
    (hs : SchedValid sched (opsOf st)) :
    (sched.map (fun x => x.1.path)).Nodup := by
  have hperm : List.Perm ((sched.map Prod.fst).map Op.path) ((opsOf st).map Op.path) :=
    hs.map Op.path
  rw [List.map_map] at hperm
  exact (hperm.nodup_iff).mpr (opsOf_nodup st)

/-! ### The claims -/

/-- Claim C1: for every `loadPending` call creating `total > 0` operations
(loaders asynchronous, each settling exactly once), the effective
`onProgress` callback is invoked exactly `total` times, with the strictly
increasing values `k / total` for `k = 1 .. total` in completion order,
ending at exactly `1`, regardless of how many operations fail. -/
theorem claim1_progress_ratios (st : State) (cfg : LoadingConfig)
    (sched : List (Op × Outcome))
    (hs : SchedValid sched (opsOf st))
    (ht : 0 < totalOf st)
    (hp : (cfg.hasOnProgress || st.hasOnProgressDefault) = true) :
    progressEvs (loadPending st cfg sched).2 =
      (List.range (totalOf st)).map (fun i => (i + 1, totalOf st)) ∧
    (progressRatios (loadPending st cfg sched).2).length = totalOf st ∧
    List.Chain' (· < ·) (progressRatios (loadPending st cfg sched).2) ∧
    (progressRatios (loadPending st cfg sched).2).getLast? = some 1 := by
  have hlen := schedValid_length hs
  have hpe : progressEvs (loadPending st cfg sched).2 =
      (List.range (totalOf st)).map (fun i => (i + 1, totalOf st)) := by
    rw [loadPending_eq]
    simp only [progressEvs_append]
    obtain ⟨-, h1, -, -, -⟩ := drainLoop_evs st.pending.reverse { st with pending := [] }
    rw [h1, runCompletions_progress, hp, if_pos rfl, hlen]
    have h3 : progressEvs [Ev.resolved (totalOf st)] = [] := rfl
    rw [h3, List.append_nil, List.nil_append]
    apply List.map_congr_left
    intro i _
    have h4 : 0 + 1 + i = i + 1 := by omega
    rw [h4]
  have hn : (0 : ℚ) < (totalOf st : ℚ) := by exact_mod_cast ht
  have hratios : progressRatios (loadPending st cfg sched).2 =
      (List.range (totalOf st)).map (fun i : ℕ => ((i : ℚ) + 1) / (totalOf st : ℚ)) := by
    rw [progressRatios, hpe, List.map_map]
    apply List.map_congr_left
    intro i _
    simp only [Function.comp_apply]
    push_cast
    ring
  refine ⟨hpe, ?_, ?_, ?_⟩
  · rw [hratios]
    simp
  · rw [hratios]
    apply List.Pairwise.chain'
    refine List.Pairwise.map (fun i : ℕ => ((i : ℚ) + 1) / (totalOf st : ℚ))
      ?_ (List.pairwise_lt_range (totalOf st))
    intro a b hab
    refine (div_lt_div_iff_of_pos_right hn).mpr ?_
    have hc : (a : ℚ) < (b : ℚ) := by exact_mod_cast hab
    linarith
  · rw [hratios]
    rw [List.getLast?_eq_getElem? ((List.range (totalOf st)).map
      (fun i : ℕ => ((i : ℚ) + 1) / (totalOf st : ℚ)))]
    have hlt : totalOf st - 1 < totalOf st := Nat.sub_lt ht Nat.one_pos
    simp only [List.length_map, List.length_range, List.getElem?_map]
    rw [List.getElem?_range hlt]
    simp only [Option.map_some']
    have hcast : ((totalOf st - 1 : ℕ) : ℚ) + 1 = (totalOf st : ℚ) := by
      rw [Nat.cast_sub (by omega : 1 ≤ totalOf st)]
      ring
    rw [hcast, div_self (ne_of_gt hn)]

/-- Claim C2: for every `loadPending` call whose drained requests contain
`N` distinct paths not in the cache at drain time, the loaders' `load` is
invoked exactly `N` times (once per such path, duplicates deduplicated by
the in-progress marker), and the returned promise resolves exactly once,
after all `N` success/error callbacks have fired. -/
theorem claim2_exactly_once (st : State) (cfg : LoadingConfig)
    (sched : List (Op × Outcome)) (hs : SchedValid sched (opsOf st)) :
    (∀ p : String,
      (loadedPaths (loadPending st cfg sched).2).count p =
        (if p ∈ reqPaths st.pending ∧ mapHas p st.resources = false then 1 else 0)) ∧
    (loadedPaths (loadPending st cfg sched).2).length = totalOf st ∧
    sched.length = totalOf st ∧
    resolvedList (loadPending st cfg sched).2 = [totalOf st] ∧
    (loadPending st cfg sched).2.getLast? = some (Ev.resolved (totalOf st)) := by
  refine ⟨?_, ?_, schedValid_length hs, loadPending_resolvedList st cfg sched,
    loadPending_getLast st cfg sched⟩
  · intro p
    rw [loadPending_loadedPaths]
    by_cases hmem : p ∈ (opsOf st).map Op.path
    · rw [List.count_eq_one_of_mem (opsOf_nodup st) hmem,
          if_pos ((mem_opsOf st p).mp hmem)]
    · rw [List.count_eq_zero_of_not_mem hmem,
          if_neg (fun hcon => hmem ((mem_opsOf st p).mpr hcon))]
  · rw [loadPending_loadedPaths]
    simp [totalOf]

/-- Claim C5: loader failures never reject the `loadPending` promise: it
resolves once all operations settle; every failed operation's key is absent
from the cache at the end (so `get` reads `undefined`), and each error is
reported exactly once, in order, through the effective `onError` (if one is
set). -/
theorem claim5_partial_failure (st : State) (cfg : LoadingConfig)
    (sched : List (Op × Outcome)) (hs : SchedValid sched (opsOf st)) :
    resolvedList (loadPending st cfg sched).2 = [totalOf st] ∧
    (loadPending st cfg sched).2.getLast? = some (Ev.resolved (totalOf st)) ∧
    (∀ (op : Op) (e : Nat), (op, Outcome.error e) ∈ sched →
      mapHas op.path (loadPending st cfg sched).1.resources = false ∧
      get (loadPending st cfg sched).1 op.path = Value.vundef) ∧
    errorEvents (loadPending st cfg sched).2 =
      (if (cfg.hasOnError || st.hasOnErrorDefault) = true
       then schedErrors sched else []) := by
  refine ⟨loadPending_resolvedList st cfg sched, loadPending_getLast st cfg sched, ?_, ?_⟩
  · intro op e hmem
    have habs : mapHas op.path (loadPending st cfg sched).1.resources = false := by
      rw [loadPending_eq]
      exact runCompletions_error_absent _ _ _ sched _ 0 op e
        (schedValid_paths_nodup hs) hmem
    refine ⟨habs, ?_⟩
    rw [get, mapGet_of_has_false habs]
    rfl
  · rw [loadPending_eq]
    simp only [errorEvents_append]
    obtain ⟨-, -, h1, -, -⟩ := drainLoop_evs st.pending.reverse { st with pending := [] }
    rw [h1, runCompletions_errors]
    have h3 : errorEvents [Ev.resolved (totalOf st)] = [] := rfl
    rw [h3, List.append_nil, List.nil_append]

/-! ### Helpers for the remaining claims -/

theorem getLoader_already {st : State} {t : Nat} (h : mapHas t st.loaders = true) :
    getLoader st t = (st, (mapGet t st.loaders).getD 0) := by
  unfold getLoader
  rw [if_pos h]

theorem getLoader_not_has {st : State} {t : Nat} (h : mapHas t st.loaders = false) :
    getLoader st t =
      ({ st with loaders := mapSet t st.nextInstance st.loaders,
                 nextInstance := st.nextInstance + 1 }, st.nextInstance) := by
  unfold getLoader
  rw [if_neg (by simp [h])]
  simp [mapGet_set]

theorem drain_single_cached (stq : State) (tq : Nat) (p : String) (v : Value)
    (hpend : stq.pending = [⟨tq, [PathItem.cfg p]⟩])
    (hv : mapGet p stq.resources = some v) :
    (drainLoop { stq with pending := [] } stq.pending.reverse).ops = [] ∧
    (drainLoop { stq with pending := [] } stq.pending.reverse).evs =
      [Ev.getLoaderCall tq (getLoader { stq with pending := [] } tq).2,
       Ev.loadCb p v] := by
  rw [hpend, List.reverse_singleton]
  have hc1 : mapHas (PathItem.cfg p).path
      (getLoader { stq with pending := [] } tq).1.resources = true := by
    rw [getLoader_resources]
    exact mapHas_of_get_some hv
  have hv1 : mapGet (PathItem.cfg p).path
      (getLoader { stq with pending := [] } tq).1.resources = some v := by
    rw [getLoader_resources]
    exact hv
  constructor
  · show ((drainEntries (getLoader { stq with pending := [] } tq).2
      (getLoader { stq with pending := [] } tq).1 [PathItem.cfg p]).ops ++ []) = []
    rw [drainEntries_cons_cached _ _ _ _ hc1]
    rfl
  · show (Ev.getLoaderCall tq (getLoader { stq with pending := [] } tq).2 ::
      (drainEntries (getLoader { stq with pending := [] } tq).2
        (getLoader { stq with pending := [] } tq).1 [PathItem.cfg p]).evs) ++ [] = _
    rw [drainEntries_cons_cached _ _ _ _ hc1, hv1]
    simp [PathItem.hasOnLoad]
    exact ⟨rfl, rfl⟩

/-- Claim C3: a path already in the cache is never fetched again: `load`
resolves with the cached value without touching the loader, and a `preload`
of that path followed by `loadPending` creates no operation, does not
increment `total`, and fires the entry's `onLoad` with the cached value
synchronously during the drain. -/
theorem claim3_idempotent_fetch (st : State) (t tq : Nat) (p : String) (v : Value)
    (cfg : LoadingConfig)
    (hv : mapGet p st.resources = some v) (hpend : st.pending = []) :
    (∀ (hoe : Bool) (oc : Outcome), load st t p hoe oc = (st, [], v)) ∧
    opsOf (preload st tq [PathItem.cfg p]) = [] ∧
    totalOf (preload st tq [PathItem.cfg p]) = 0 ∧
    loadedPaths (loadPending (preload st tq [PathItem.cfg p]) cfg []).2 = [] ∧
    progressEvs (loadPending (preload st tq [PathItem.cfg p]) cfg []).2 = [] ∧
    errorEvents (loadPending (preload st tq [PathItem.cfg p]) cfg []).2 = [] ∧
    loadCbList (loadPending (preload st tq [PathItem.cfg p]) cfg []).2 = [(p, v)] := by
  have hq : (preload st tq [PathItem.cfg p]).pending = [⟨tq, [PathItem.cfg p]⟩] := by
    simp [preload, hpend]
  have hvq : mapGet p (preload st tq [PathItem.cfg p]).resources = some v := hv
  obtain ⟨hops, hevs⟩ := drain_single_cached (preload st tq [PathItem.cfg p]) tq p v hq hvq
  have hops2 : opsOf (preload st tq [PathItem.cfg p]) = [] := hops
  have htot : totalOf (preload st tq [PathItem.cfg p]) = 0 := by
    rw [totalOf, hops2]
    rfl
  have htr : (loadPending (preload st tq [PathItem.cfg p]) cfg []).2 =
      [Ev.getLoaderCall tq
         (getLoader { preload st tq [PathItem.cfg p] with pending := [] } tq).2,
       Ev.loadCb p v, Ev.resolved 0] := by
    have h1 : (loadPending (preload st tq [PathItem.cfg p]) cfg []).2 =
        (drainLoop { preload st tq [PathItem.cfg p] with pending := [] }
          (preload st tq [PathItem.cfg p]).pending.reverse).evs ++ [] ++
        [Ev.resolved (totalOf (preload st tq [PathItem.cfg p]))] := rfl
    rw [h1, List.append_nil, hevs, htot]
    rfl
  refine ⟨fun hoe oc => load_cached hv t hoe oc, hops2, htot, ?_, ?_, ?_, ?_⟩ <;>
    rw [htr] <;>
    simp [loadedPaths, progressEvs, errorEvents, loadCbList, List.filterMap_cons]

/-- Claim C4: when the loader reports an error to `load`, the path is
removed from the cache (`get` reads absent afterwards), `onError` (if
supplied) receives the error, and the returned promise fulfils (never
rejects) with `undefined`. -/
theorem claim4_load_error (st : State) (t : Nat) (p : String) (hoe : Bool) (e : Nat)
    (h : mapHas p st.resources = false) :
    mapHas p (load st t p hoe (Outcome.error e)).1.resources = false ∧
    get (load st t p hoe (Outcome.error e)).1 p = Value.vundef ∧
    errorEvents (load st t p hoe (Outcome.error e)).2.1 = (if hoe then [e] else []) ∧
    (load st t p hoe (Outcome.error e)).2.2 = Value.vundef := by
  unfold load
  rw [if_neg (by simp [h])]
  refine ⟨?_, ?_, ?_, rfl⟩
  · show mapHas p (mapDel p (getLoader
      { st with resources := mapSet p Value.vnull st.resources } t).1.resources) = false
    rw [mapHas_del]
    simp
  · show (mapGet p (mapDel p (getLoader
      { st with resources := mapSet p Value.vnull st.resources } t).1.resources)).getD
        Value.vundef = Value.vundef
    rw [mapGet_del]
    simp
  · show errorEvents (Ev.loaderLoad (getLoader
      { st with resources := mapSet p Value.vnull st.resources } t).2 p ::
        (if hoe = true then [Ev.errorCb e] else [])) = (if hoe = true then [e] else [])
    cases hoe <;> simp [errorEvents, List.filterMap_cons]

/-- Claim C6: `getLoader` memoizes: a second call without an intervening
removal returns the same instance and leaves the registry untouched; after
`removeLoader` the next `getLoader` constructs a different, fresh instance;
`removeLoader` on an absent type is a no-op. -/
theorem claim6_loader_memoization (st : State) (t : Nat) (h : RegistryWF st) :
    getLoader (getLoader st t).1 t = ((getLoader st t).1, (getLoader st t).2) ∧
    (getLoader (removeLoader (getLoader st t).1 t) t).2 ≠ (getLoader st t).2 ∧
    (mapHas t st.loaders = false → removeLoader st t = st) := by
  refine ⟨?_, ?_, ?_⟩
  · have hm := getLoader_mem st t
    rw [getLoader_already (mapHas_of_get_some hm), hm]
    rfl
  · have h1 : (getLoader st t).2 < (getLoader st t).1.nextInstance :=
      getLoader_lt st t h
    have h2 : mapHas t (removeLoader (getLoader st t).1 t).loaders = false := by
      show mapHas t (mapDel t (getLoader st t).1.loaders) = false
      rw [mapHas_del]
      simp
    rw [getLoader_not_has h2]
    show (removeLoader (getLoader st t).1 t).nextInstance ≠ (getLoader st t).2
    have h4 : (removeLoader (getLoader st t).1 t).nextInstance =
        (getLoader st t).1.nextInstance := rfl
    rw [h4]
    omega
  · intro hab
    show { st with loaders := mapDel t st.loaders } = st
    rw [mapDel_of_not_has hab]

/-- Claim C7: a second `load` for a path whose cache entry is the
in-progress placeholder resolves immediately with the placeholder value,
regardless of what the loader would have reported — it does not wait for
the in-flight load. -/
theorem claim7_placeholder_returned (st : State) (t : Nat) (p : String)
    (h : mapGet p st.resources = some Value.vnull) :
    ∀ (hoe : Bool) (oc : Outcome), load st t p hoe oc = (st, [], Value.vnull) :=
  fun hoe oc => load_cached h t hoe oc

/-- Claim C8: `loadPending` fully drains the queue, processing every queued
request exactly once (most recently queued first — one `getLoader` call per
request, in pop order) and leaving the queue empty; when it creates no
operations the promise resolves immediately with an empty result and no
progress or error callback fires. -/
theorem claim8_full_drain (st : State) (cfg : LoadingConfig)
    (sched : List (Op × Outcome)) :
    (loadPending st cfg sched).1.pending = [] ∧
    calledLoaders (loadPending st cfg sched).2 = st.pending.reverse.map Req.loader ∧
    (totalOf st = 0 → SchedValid sched (opsOf st) →
      (loadPending st cfg sched).2 =
        (drainLoop { st with pending := [] } st.pending.reverse).evs ++ [Ev.resolved 0] ∧
      progressEvs (loadPending st cfg sched).2 = [] ∧
      errorEvents (loadPending st cfg sched).2 = [] ∧
      resolvedList (loadPending st cfg sched).2 = [0]) := by
  refine ⟨?_, ?_, ?_⟩
  · rw [loadPending_eq]
    rw [runCompletions_pending]
    exact (drainLoop_frame st.pending.reverse { st with pending := [] }).1
  · rw [loadPending_eq]
    simp only [calledLoaders_append]
    obtain ⟨-, -, -, -, h5⟩ := drainLoop_evs st.pending.reverse { st with pending := [] }
    obtain ⟨-, -, h6⟩ := runCompletions_other_evs
      (cfg.hasOnProgress || st.hasOnProgressDefault)
      (cfg.hasOnError || st.hasOnErrorDefault) (totalOf st) sched
      (drainLoop { st with pending := [] } st.pending.reverse).st 0
    rw [h5, h6]
    simp [calledLoaders]
  · intro h0 hs
    have hops : opsOf st = [] := List.length_eq_zero.mp h0
    have hsched : sched = [] := by
      have h1 : sched.map Prod.fst = [] := by
        rw [hops] at hs
        exact List.perm_nil.mp hs
      exact List.map_eq_nil_iff.mp h1
    subst hsched
    have htr : (loadPending st cfg []).2 =
        (drainLoop { st with pending := [] } st.pending.reverse).evs ++
        [Ev.resolved 0] := by
      have h1 : (loadPending st cfg []).2 =
          (drainLoop { st with pending := [] } st.pending.reverse).evs ++ [] ++
          [Ev.resolved (totalOf st)] := rfl
      rw [h1, List.append_nil, h0]
    obtain ⟨-, h2, h3, -, -⟩ := drainLoop_evs st.pending.reverse { st with pending := [] }
    refine ⟨htr, ?_, ?_, ?_⟩
    · rw [htr, progressEvs_append, h2]
      rfl
    · rw [htr, errorEvents_append, h3]
      rfl
    · rw [loadPending_resolvedList, h0]

/-- Claim C9: the public `get` cannot distinguish an absent key from one
mapped to `undefined` (both read `undefined`), while `load` and
`loadPending` test key presence: a key `add`ed with any value — `undefined`
or the placeholder included — counts as cached, so `load` fulfils with the
stored value and a drain creates no operation for it. -/
theorem claim9_presence_vs_value (st : State) (p : String) (t tq : Nat) (v : Value) :
    (∀ q : String, mapHas q st.resources = false → get st q = Value.vundef) ∧
    get (add st p Value.vundef) p = Value.vundef ∧
    (∀ (hoe : Bool) (oc : Outcome), load (add st p v) t p hoe oc = (add st p v, [], v)) ∧
    opsOf { add st p v with pending := [⟨tq, [PathItem.str p]⟩] } = [] ∧
    totalOf { add st p v with pending := [⟨tq, [PathItem.str p]⟩] } = 0 := by
  have hget : mapGet p (add st p v).resources = some v := by
    show mapGet p (mapSet p v st.resources) = some v
    rw [mapGet_set]
    simp
  have hops : opsOf { add st p v with pending := [⟨tq, [PathItem.str p]⟩] } = [] := by
    unfold opsOf
    have hc1 : mapHas (PathItem.str p).path
        (getLoader { add st p v with pending := [] } tq).1.resources = true := by
      rw [getLoader_resources]
      exact mapHas_of_get_some hget
    show ((drainEntries (getLoader { add st p v with pending := [] } tq).2
      (getLoader { add st p v with pending := [] } tq).1 [PathItem.str p]).ops ++ []) = []
    rw [drainEntries_cons_cached _ _ _ _ hc1]
    rfl
  refine ⟨?_, ?_, ?_, hops, ?_⟩
  · intro q hq
    rw [get, mapGet_of_has_false hq]
    rfl
  · show (mapGet p (mapSet p Value.vundef st.resources)).getD Value.vundef = Value.vundef
    rw [mapGet_set]
    simp
  · intro hoe oc
    exact load_cached hget t hoe oc
  · rw [totalOf, hops]
    rfl

/-- Claim C10: `preload` only appends one `PendingRequest` to the queue; it
leaves the cache, the loader registry, the instance counter and the default
callbacks unchanged, constructs no loader, and (since it returns a bare
`State` with no trace) invokes no loader and no callback. -/
theorem claim10_preload_frame (st : State) (t : Nat) (items : List PathItem) :
    (preload st t items).pending = st.pending ++ [⟨t, items⟩] ∧
    (preload st t items).resources = st.resources ∧
    (preload st t items).loaders = st.loaders ∧
    (preload st t items).nextInstance = st.nextInstance ∧
    (preload st t items).hasOnProgressDefault = st.hasOnProgressDefault ∧
    (preload st t items).hasOnErrorDefault = st.hasOnErrorDefault :=
  ⟨rfl, rfl, rfl, rfl, rfl, rfl⟩

/-! ### Concrete witnesses -/

theorem claim1_witness :
    SchedValid schedBatch (opsOf stBatch) ∧
    0 < totalOf stBatch ∧
    ((LoadingConfig.mk true false).hasOnProgress || stBatch.hasOnProgressDefault) = true ∧
    (progressEvs (loadPending stBatch ⟨true, false⟩ schedBatch).2 =
      (List.range (totalOf stBatch)).map (fun i => (i + 1, totalOf stBatch)) ∧
     (progressRatios (loadPending stBatch ⟨true, false⟩ schedBatch).2).length =
       totalOf stBatch ∧
     List.Chain' (· < ·) (progressRatios (loadPending stBatch ⟨true, false⟩ schedBatch).2) ∧
     (progressRatios (loadPending stBatch ⟨true, false⟩ schedBatch).2).getLast? = some 1) :=
  ⟨by decide, by decide, by decide,
   claim1_progress_ratios stBatch ⟨true, false⟩ schedBatch (by decide) (by decide) (by decide)⟩

theorem claim2_witness :
    SchedValid schedBatch (opsOf stBatch) ∧
    (loadedPaths (loadPending stBatch ⟨true, true⟩ schedBatch).2).count "a.obj" =
      (if "a.obj" ∈ reqPaths stBatch.pending ∧ mapHas "a.obj" stBatch.resources = false
       then 1 else 0) ∧
    (loadedPaths (loadPending stBatch ⟨true, true⟩ schedBatch).2).count "c.obj" =
      (if "c.obj" ∈ reqPaths stBatch.pending ∧ mapHas "c.obj" stBatch.resources = false
       then 1 else 0) ∧
    (loadedPaths (loadPending stBatch ⟨true, true⟩ schedBatch).2).length = totalOf stBatch ∧
    resolvedList (loadPending stBatch ⟨true, true⟩ schedBatch).2 = [totalOf stBatch] ∧
    (loadPending stBatch ⟨true, true⟩ schedBatch).2.getLast? =
      some (Ev.resolved (totalOf stBatch)) :=
  have h := claim2_exactly_once stBatch ⟨true, true⟩ schedBatch (by decide)
  ⟨by decide, h.1 "a.obj", h.1 "c.obj", h.2.1, h.2.2.2.1, h.2.2.2.2⟩

theorem claim3_witness :
    mapGet "a.obj" stCachedA.resources = some (Value.res 7) ∧
    stCachedA.pending = [] ∧
    load stCachedA 0 "a.obj" true (Outcome.error 9) = (stCachedA, [], Value.res 7) ∧
    opsOf (preload stCachedA 1 [PathItem.cfg "a.obj"]) = [] ∧
    totalOf (preload stCachedA 1 [PathItem.cfg "a.obj"]) = 0 ∧
    loadCbList
      (loadPending (preload stCachedA 1 [PathItem.cfg "a.obj"]) ⟨false, false⟩ []).2 =
      [("a.obj", Value.res 7)] :=
  have h := claim3_idempotent_fetch stCachedA 0 1 "a.obj" (Value.res 7) ⟨false, false⟩
    (by decide) (by decide)
  ⟨by decide, by decide, h.1 true (Outcome.error 9), h.2.1, h.2.2.1, h.2.2.2.2.2.2⟩

theorem claim4_witness :
    mapHas "x.obj" initialState.resources = false ∧
    mapHas "x.obj" (load initialState 0 "x.obj" true (Outcome.error 3)).1.resources = false ∧
    get (load initialState 0 "x.obj" true (Outcome.error 3)).1 "x.obj" = Value.vundef ∧
    errorEvents (load initialState 0 "x.obj" true (Outcome.error 3)).2.1 = [3] ∧
    (load initialState 0 "x.obj" true (Outcome.error 3)).2.2 = Value.vundef :=
  have h := claim4_load_error initialState 0 "x.obj" true 3 (by decide)
  ⟨by decide, h.1, h.2.1, h.2.2.1, h.2.2.2⟩

theorem claim5_witness :
    SchedValid schedBatch (opsOf stBatch) ∧
    resolvedList (loadPending stBatch ⟨true, true⟩ schedBatch).2 = [totalOf stBatch] ∧
    mapHas "b.obj" (loadPending stBatch ⟨true, true⟩ schedBatch).1.resources = false ∧
    get (loadPending stBatch ⟨true, true⟩ schedBatch).1 "b.obj" = Value.vundef ∧
    errorEvents (loadPending stBatch ⟨true, true⟩ schedBatch).2 =
      (if ((LoadingConfig.mk true true).hasOnError || stBatch.hasOnErrorDefault) = true
       then schedErrors schedBatch else []) :=
  have h := claim5_partial_failure stBatch ⟨true, true⟩ schedBatch (by decide)
  have he := h.2.2.1 ⟨1, "b.obj", true⟩ 5 (by decide)
  ⟨by decide, h.1, he.1, he.2, h.2.2.2⟩

theorem claim6_witness :
    getLoader (getLoader initialState 0).1 0 =
      ((getLoader initialState 0).1, (getLoader initialState 0).2) ∧
    (getLoader (removeLoader (getLoader initialState 0).1 0) 0).2 ≠
      (getLoader initialState 0).2 ∧
    removeLoader initialState 0 = initialState :=
  have h := claim6_loader_memoization initialState 0
    (fun pr hpr => absurd hpr (by simp [initialState]))
  ⟨h.1, h.2.1, h.2.2 (by decide)⟩

theorem claim7_witness :
    mapGet "a.obj" stInFlightA.resources = some Value.vnull ∧
    load stInFlightA 0 "a.obj" true (Outcome.success (Value.res 1)) =
      (stInFlightA, [], Value.vnull) :=
  ⟨by decide,
   claim7_placeholder_returned stInFlightA 0 "a.obj" (by decide) true
     (Outcome.success (Value.res 1))⟩

theorem claim8_witness :
    (loadPending stAllCached ⟨true, true⟩ []).1.pending = [] ∧
    calledLoaders (loadPending stAllCached ⟨true, true⟩ []).2 =
      stAllCached.pending.reverse.map Req.loader ∧
    totalOf stAllCached = 0 ∧
    SchedValid [] (opsOf stAllCached) ∧
    progressEvs (loadPending stAllCached ⟨true, true⟩ []).2 = [] ∧
    errorEvents (loadPending stAllCached ⟨true, true⟩ []).2 = [] ∧
    resolvedList (loadPending stAllCached ⟨true, true⟩ []).2 = [0] :=
  have h := claim8_full_drain stAllCached ⟨true, true⟩ []
  have hc := h.2.2 (by decide) (by decide)
  ⟨h.1, h.2.1, by decide, by decide, hc.2.1, hc.2.2.1, hc.2.2.2⟩

theorem claim9_witness :
    get (add initialState "p.obj" Value.vundef) "p.obj" = Value.vundef ∧
    get initialState "p.obj" = Value.vundef ∧
    load (add initialState "p.obj" Value.vundef) 0 "p.obj" true
        (Outcome.success (Value.res 1)) =
      (add initialState "p.obj" Value.vundef, [], Value.vundef) ∧
    totalOf { add initialState "p.obj" Value.vundef with
              pending := [⟨1, [PathItem.str "p.obj"]⟩] } = 0 :=
  have h := claim9_presence_vs_value initialState "p.obj" 0 1 Value.vundef
  ⟨h.2.1, h.1 "p.obj" (by decide), h.2.2.1 true (Outcome.success (Value.res 1)),
   h.2.2.2.2⟩

end Assets
